import Mathlib

/-!
Verification development for the MockSystem spiking-network simulator
(neurokernel/MockSystem/MockSystem.py).

The Python orchestration and construction code is embedded shallowly:
real-valued quantities are modelled as exact rationals, integer indices as
naturals, and the per-synapse tick delays (stored via `astype(np.int32)`)
as integers reduced modulo 2^32.  The CUDA kernels referenced by the
Python file (`euler_kernel.cu`, `input_func.cu`, `terminal_synapse.cu`)
are not part of the source tree; where their behaviour is needed it is
modelled from the specification and marked as such in the doc comments.

Randomness: `MockSystem.__init__` seeds numpy's generator
(`np.random.seed(0)`), so the numpy draws (`np_rd.random_integers`) form a
fixed but unknown stream; the standard-library draws (`rd.gauss`) are
never seeded.  Both streams are therefore taken as explicit inputs of the
embedded constructor: `npS` gives the numpy integer draws (reduced into
`random_integers`' inclusive range `[0, num_neurons]`), `rdS` gives the
sequence of values returned by the successive `rd.gauss` calls.
-/

namespace MockSim

/-- Python 2 `int()` applied to a real value: truncation toward zero. -/
def pyInt (x : ℚ) : ℤ := if 0 ≤ x then ⌊x⌋ else -⌊-x⌋

/-- Python 2 built-in `round`: round half away from zero. -/
def pyRound (x : ℚ) : ℤ := if 0 ≤ x then ⌊x + 1/2⌋ else -⌊-x + 1/2⌋

/-- `np.round`: round half to even. -/
def npRound (x : ℚ) : ℤ :=
  if x - ⌊x⌋ < 1/2 then ⌊x⌋
  else if 1/2 < x - ⌊x⌋ then ⌊x⌋ + 1
  else if Even ⌊x⌋ then ⌊x⌋ else ⌊x⌋ + 1

/-- `astype(np.int32)`: reduction into the signed 32-bit range. -/
def wrap32 (z : ℤ) : ℤ := (z + 2 ^ 31) % 2 ^ 32 - 2 ^ 31

/-- Saturation of a value into `[0, 1]` (the `clamp(·, 0, 1)` of the
synaptic response curve, spec 4.4). -/
def clamp01 (x : ℚ) : ℚ := min 1 (max 0 x)

/-- Insert into a sorted list (helper for `npSort`). -/
def insertSorted (a : ℕ) : List ℕ → List ℕ
  | [] => [a]
  | b :: t => if a ≤ b then a :: b :: t else b :: insertSorted a t

/-- `np.sort` on a list of naturals (insertion sort; only the multiset of
elements and sortedness matter to the embedded code). -/
def npSort : List ℕ → List ℕ
  | [] => []
  | a :: t => insertSorted a (npSort t)

/-- `sp.bincount`: entry `i` counts the occurrences of `i`; the result has
`max xs + 1` entries (empty input gives an empty array). -/
def bincount (xs : List ℕ) : List ℕ :=
  if xs = [] then [] else (List.range (xs.foldr max 0 + 1)).map fun i => xs.count i

/-- `np.cumsum`: running sums, `cumsum [a, b, c] = [a, a+b, a+b+c]`. -/
def cumsum : List ℕ → List ℕ
  | [] => []
  | a :: t => a :: (cumsum t).map (a + ·)

/-- A block of consecutive values of the (unseeded) `rd.gauss` output
stream, as consumed by a list comprehension of `len` calls. -/
def drawList (s : ℕ → ℚ) (off len : ℕ) : List ℚ :=
  (List.range len).map fun i => s (off + i)

/-- A block of consecutive numpy integer draws;
`np_rd.random_integers(0, bound)` has the INCLUSIVE range `[0, bound]`,
which the reduction `% (bound + 1)` makes explicit. -/
def drawNats (s : ℕ → ℕ) (off len bound : ℕ) : List ℕ :=
  (List.range len).map fun i => s (off + i) % (bound + 1)

/-- `CircularArray`: the delay buffer.  `buffer` holds `delay_steps` rows
of `num_neurons` voltages; `current` is the write cursor. -/
structure CircularArray where
  num_neurons : ℕ
  delay_steps : ℕ
  buffer : List (List ℚ)
  current : ℕ
  deriving Inhabited, DecidableEq

/-- `CircularArray.__init__`: every row is pre-filled with the resting
vector `rest` and the cursor starts at 0. -/
def CircularArray.init (n D : ℕ) (rest : List ℚ) : CircularArray :=
  { num_neurons := n, delay_steps := D
    buffer := List.replicate D rest, current := 0 }

/-- `CircularArray.step`: `current += 1; if current >= delay_steps: current = 0`. -/
def CircularArray.step (c : CircularArray) : CircularArray :=
  { c with current := if c.delay_steps ≤ c.current + 1 then 0 else c.current + 1 }

/-- The write performed by the integration kernel: `MorrisLecar.eval`
passes the device pointer `buffer.gpudata + current * ld * itemsize`, so
the new voltage vector lands in row `current`. -/
def CircularArray.write (c : CircularArray) (v : List ℚ) : CircularArray :=
  { c with buffer := c.buffer.set c.current v }

/-- Modelled from the spec: the delayed read performed inside
`terminal_synapse.cu` (absent from the source tree).  Spec 3 (DelayBuffer):
reads for a synapse with delay `k` address slot `(current - k) mod D`. -/
def CircularArray.read (c : CircularArray) (i : ℕ) (d : ℤ) : ℚ :=
  ((c.buffer.getD (((c.current - d) % (c.delay_steps : ℤ)).toNat) []).getD i 0)

/-- `MorrisLecar`: per-neuron state and the static tables loaded at
construction.  `V_1 .. Tphi, offset, neuron_start` are the per-type
constant tables copied to the device in `get_euler_kernel`. -/
structure MorrisLecar where
  num_cart : ℕ
  num_types : ℕ
  num_neurons : ℕ
  dt : ℚ
  steps : ℤ
  ddt : ℚ
  V : List ℚ
  n : List ℚ
  I_pre : List ℚ
  cum_num_dendrite : List ℕ
  num_dendrite : List ℕ
  num_input : ℕ
  neuron_start : List ℕ
  V_1 : List ℚ
  V_2 : List ℚ
  V_3 : List ℚ
  V_4 : List ℚ
  Tphi : List ℚ
  offset : List ℚ
  deriving Inhabited, DecidableEq

/-- `MorrisLecar.__init__`: in particular
`steps = max(int(round(dt / 1e-5)), 1)`, `ddt = dt / steps`,
`I_pre = zeros(num_neurons)`,
`cum_num_dendrite = concatenate(([0], cumsum(num_dendrite)))` and
`num_input = int(neuron_start[non_input_start])` (the index is guarded at
the `mkMockSystem` level, where an out-of-range index aborts construction). -/
def mkMorrisLecar (num_neurons num_types num_cart : ℕ) (neuron_start : List ℕ)
    (dt : ℚ) (num_dendrite : List ℕ) (V n : List ℚ)
    (V1 V2 V3 V4 Tphi offset : List ℚ) (non_input_start : ℕ) : MorrisLecar :=
  let s : ℤ := max (pyRound (dt / (1/100000))) 1
  { num_cart := num_cart, num_types := num_types, num_neurons := num_neurons
    dt := dt, steps := s, ddt := dt / (s : ℚ)
    V := V, n := n
    I_pre := List.replicate num_neurons 0
    cum_num_dendrite := 0 :: cumsum num_dendrite
    num_dendrite := num_dendrite
    num_input := neuron_start.getD non_input_start 0
    neuron_start := neuron_start
    V_1 := V1, V_2 := V2, V_3 := V3, V_4 := V4, Tphi := Tphi, offset := offset }

/-- `self.neurons.I_pre.fill(0)` (first line of `run_step`). -/
def MorrisLecar.I_pre_fill0 (ml : MorrisLecar) : MorrisLecar :=
  { ml with I_pre := List.replicate ml.num_neurons 0 }

/-- `MorrisLecar.update_I_pre_input`: a device-to-device copy of the first
`num_input` entries of the external current into `I_pre`; the remaining
entries are left untouched. -/
def MorrisLecar.update_I_pre_input (ml : MorrisLecar) (ext : ℕ → ℚ) : MorrisLecar :=
  { ml with I_pre := (List.range ml.num_neurons).map fun j =>
      if j < ml.num_input then ext j else ml.I_pre.getD j 0 }

/-- Modelled from the spec: the per-neuron reduction of `input_func.cu`
(absent from the source tree).  Spec 4.2: for neuron `i`, add
`conductance_j * (V_rev_j - V_i)` over the contiguous block of
`num_dendrite[i]` synapses starting at `cum_num_dendrite[i]`, on top of
the current already in `I_pre`. -/
def MorrisLecar.read_synapse (ml : MorrisLecar) (conductance V_rev : List ℚ) : MorrisLecar :=
  { ml with I_pre := (List.range ml.num_neurons).map fun i =>
      ml.I_pre.getD i 0 +
        (((List.range (ml.num_dendrite.getD i 0)).map fun k =>
          conductance.getD (ml.cum_num_dendrite.getD i 0 + k) 0 *
            (V_rev.getD (ml.cum_num_dendrite.getD i 0 + k) 0 - ml.V.getD i 0)).sum) }

/-- `VectorSynapse`: static per-synapse tables plus the mutable
conductance vector.  `post_neuron` is passed by the source but its storage
is commented out. -/
structure VectorSynapse where
  dt : ℚ
  num_synapse : ℕ
  pre_neuron : List ℕ
  threshold : List ℚ
  slope : List ℚ
  power : List ℚ
  saturation : List ℚ
  delay : List ℤ
  conductance : List ℚ
  V_rev : List ℚ
  deriving Inhabited, DecidableEq

/-- `VectorSynapse.__init__`: in particular
`delay = np.round(syn_delay * 1e-3 / dt).astype(np.int32)` and
`conductance = zeros(num_synapse)`. -/
def mkVectorSynapse (num_synapse : ℕ) (pre_neuron : List ℕ)
    (syn_thres syn_slope syn_power syn_saturation syn_delay V_rev : List ℚ)
    (dt : ℚ) : VectorSynapse :=
  { dt := dt, num_synapse := num_synapse, pre_neuron := pre_neuron
    threshold := syn_thres, slope := syn_slope, power := syn_power
    saturation := syn_saturation
    delay := syn_delay.map fun d => wrap32 (npRound (d * (1/1000) / dt))
    conductance := List.replicate num_synapse 0
    V_rev := V_rev }

/-- Modelled from the spec: the per-synapse conductance recomputation of
`terminal_synapse.cu` (absent from the source tree).  Spec 4.4: read the
presynaptic voltage `delay` ticks back, form
`a = clamp(slope * (V_delayed - threshold), 0, 1)` and set
`conductance = saturation * a ^ power` (the exponent is integer-valued; the
source always builds `power = np.ones`). -/
def VectorSynapse.compute_synapse (syn : VectorSynapse) (buf : CircularArray) : List ℚ :=
  (List.range syn.num_synapse).map fun j =>
    syn.saturation.getD j 0 *
      clamp01 (syn.slope.getD j 0 *
        (buf.read (syn.pre_neuron.getD j 0) (syn.delay.getD j 0) -
          syn.threshold.getD j 0)) ^ (pyInt (syn.power.getD j 0)).toNat

/-- `MockSystem`: the top-level simulation object (fields of interest of
`MockSystem.__init__` plus the members created by `init_gpu`). -/
structure MockSystem where
  num_neurons : ℕ
  num_synapses : ℕ
  dt : ℚ
  start_idx : List ℕ
  neurons : MorrisLecar
  buffer : CircularArray
  synapses : VectorSynapse
  deriving Inhabited, DecidableEq

/-- `delay_steps = int(round(max(delay) * 1e-3 / self.dt))` where `delay`
is the vector `np.ones([num_synapses])` (Python 2 built-in `round`). -/
def delayStepsOf (S : ℕ) (dt : ℚ) : ℤ :=
  pyRound (((List.replicate S (1 : ℚ)).foldr max 0) * (1/1000) / dt)

/-- The conditions under which the Python construction actually completes.
Construction only aborts incidentally, never through validation:
`num_synapses <= 0` (negative sizes make `np.zeros` raise, zero synapses
make `max(delay)` raise on an empty array, and `npt = 0` forces
`num_synapses = 0`), `dt = 0` (the delay-step computation divides by `dt`
and `int(inf)` raises), a negative `delay_steps` (a negative buffer
dimension is rejected when the buffer is allocated), and
`num_in_non / num_neurons >= 15` (an out-of-range `neuron_start` index). -/
def constructionOK (npt : ℕ) (avr dt : ℚ) (num_in_non : ℕ) : Prop :=
  0 < pyInt (avr * ((npt * 15 : ℕ) : ℚ)) ∧ dt ≠ 0 ∧
    0 ≤ delayStepsOf (pyInt (avr * ((npt * 15 : ℕ) : ℚ))).toNat dt ∧
    num_in_non / (npt * 15) < 15

instance (npt : ℕ) (avr dt : ℚ) (num_in_non : ℕ) :
    Decidable (constructionOK npt avr dt num_in_non) := by
  unfold constructionOK; infer_instance

/-- The object built by `MockSystem.__init__` followed by `init_gpu`, for
a construction that completes.  Field for field from the source:
`num_neurons = num_neurons_per_type * 15`,
`num_synapses = int(avr_synapses_per_neuron * num_neurons)`,
`start_idx[i] = num_neurons / 15 * i` (Python 2 integer division),
the numpy draws give `pre_neuron` and (sorted) `post_neuron`,
the `rd.gauss` draws give, in call order, `thres`, `slope`, `saturation`,
`reverse`, `V_1 .. Tphi` (15 each) and the initial `V`, `n`;
`power = ones`, `delay = ones`, `offset` is the fixed 15-entry array. -/
def mkCore (npt : ℕ) (avr dt : ℚ) (num_in_non : ℕ)
    (npS : ℕ → ℕ) (rdS : ℕ → ℚ) : MockSystem :=
  let N := npt * 15
  let S := (pyInt (avr * (N : ℚ))).toNat
  let start_idx := (List.range 15).map fun i => N / 15 * i
  let pre_neuron := drawNats npS 0 S N
  let post_neuron := npSort (drawNats npS S S N)
  let num_dendrite := bincount post_neuron
  let thres := drawList rdS 0 S
  let slope := drawList rdS S S
  let saturation := drawList rdS (2*S) S
  let power := List.replicate S (1 : ℚ)
  let reverse := drawList rdS (3*S) S
  let V1 := drawList rdS (4*S) 15
  let V2 := drawList rdS (4*S+15) 15
  let V3 := drawList rdS (4*S+30) 15
  let V4 := drawList rdS (4*S+45) 15
  let Tphi := drawList rdS (4*S+60) 15
  let offs : List ℚ := [0, 0, 0, 0, 0, 0, 1/5, 1/5, 1/5, 1/5, 1/5, 1/5, 1/5, 1/5, 0]
  let delay := List.replicate S (1 : ℚ)
  let V := drawList rdS (4*S+75) N
  let n := drawList rdS (4*S+75+N) N
  { num_neurons := N, num_synapses := S, dt := dt, start_idx := start_idx
    buffer := CircularArray.init N (delayStepsOf S dt).toNat V
    neurons := mkMorrisLecar N 15 (N / 15) start_idx dt num_dendrite V n
      V1 V2 V3 V4 Tphi offs (num_in_non / N)
    synapses := mkVectorSynapse S pre_neuron thres slope power saturation
      delay reverse dt }

/-- `MockSystem.__init__` + `init_gpu`.  The source performs no input
validation; the only failure modes are the incidental runtime errors
listed at `constructionOK`. -/
def mkMockSystem (npt : ℕ) (avr dt : ℚ) (num_in_non : ℕ)
    (npS : ℕ → ℕ) (rdS : ℕ → ℚ) : Option MockSystem :=
  if constructionOK npt avr dt num_in_non then
    some (mkCore npt avr dt num_in_non npS rdS) else none

/-- The first three lines of `run_step`: zero the accumulator, inject the
external current, add the synaptic contributions. -/
def MockSystem.aggPhase (sys : MockSystem) (ext : ℕ → ℚ) : MorrisLecar :=
  ((sys.neurons.I_pre_fill0).update_I_pre_input ext).read_synapse
    sys.synapses.conductance sys.synapses.V_rev

/-- `MockSystem.run_step`, line for line: zero and fill `I_pre`
(`aggPhase`), integrate (the kernel body is not in the source tree, so the
integrator is an arbitrary function `integ` producing the new `(V, n)`;
its write of the new voltages lands in buffer row `current`, see
`CircularArray.write`), recompute the conductances against the
just-written buffer, emit the new voltages, and advance the cursor. -/
def MockSystem.run_step (integ : MorrisLecar → List ℚ × List ℚ)
    (sys : MockSystem) (ext : ℕ → ℚ) : MockSystem × List ℚ :=
  let ml1 := sys.aggPhase ext
  let Vn := integ ml1
  let ml2 := { ml1 with V := Vn.1, n := Vn.2 }
  let buf1 := sys.buffer.write Vn.1
  let gNew := sys.synapses.compute_synapse buf1
  let syn2 := { sys.synapses with conductance := gNew }
  let out := Vn.1
  let buf2 := buf1.step
  ({ sys with neurons := ml2, buffer := buf2, synapses := syn2 }, out)

/-- The synapse count `int(avr_synapses_per_neuron * num_neurons)` as a
natural number (definitionally the `S` used inside `mkCore`). -/
def numSynOf (npt : ℕ) (avr : ℚ) : ℕ := (pyInt (avr * ((npt * 15 : ℕ) : ℚ))).toNat

/-- The sorted postsynaptic index list built inside `mkCore`
(definitionally the `post_neuron` of `init_gpu`). -/
def postListOf (npt : ℕ) (avr : ℚ) (npS : ℕ → ℕ) : List ℕ :=
  npSort (drawNats npS (numSynOf npt avr) (numSynOf npt avr) (npt * 15))

/-- A constant-zero numpy draw stream (for concrete instances). -/
def npZero : ℕ → ℕ := fun _ => 0

/-- A constant numpy draw stream producing 15 (so that, for a 15-neuron
network, `random_integers(0, 15)`'s inclusive upper endpoint is hit). -/
def np15 : ℕ → ℕ := fun _ => 15

/-- A constant-zero `rd.gauss` output stream. -/
def rdZero : ℕ → ℚ := fun _ => 0

/-- A constant-one `rd.gauss` output stream. -/
def rdOne : ℕ → ℚ := fun _ => 1

/-- A trivial stand-in integrator (the ordering results hold for every
integrator, this one is used to instantiate them concretely). -/
def integW : MorrisLecar → List ℚ × List ℚ := fun ml => (ml.V, ml.n)

/-- A concrete zero external-current input. -/
def extW : ℕ → ℚ := fun _ => 0

/-- A concrete constructed system: one neuron per type (15 neurons), one
synapse, `dt = 1e-4`, 7 external input channels, zero draw streams. -/
def sysW : MockSystem := (mkMockSystem 1 (1/15) (1/10000) 7 npZero rdZero).getD default

/-- A concrete `MorrisLecar` with `num_input = 1` (built directly through
the constructor, `neuron_start[0] = 1`). -/
def mlW : MorrisLecar :=
  mkMorrisLecar 2 1 2 [1, 2] (1/10000) [0, 0] [0, 0] [0, 0]
    [] [] [] [] [] [] 0

/-! ## Helper lemmas -/

theorem getD_range_map {α : Type _} (f : ℕ → α) (n j : ℕ) (d : α) :
    ((List.range n).map f).getD j d = if j < n then f j else d := by
  by_cases hj : j < n
  · rw [List.getD_eq_getElem _ _ (by simpa using hj)]
    simp [hj]
  · rw [List.getD_eq_default _ _ (by simpa using Nat.le_of_not_lt hj)]
    simp [hj]

theorem getD_map_of_lt {α β : Type _} (f : α → β) (l : List α) (j : ℕ) (d : β)
    (e : α) (h : j < l.length) : (l.map f).getD j d = f (l.getD j e) := by
  rw [List.getD_eq_getElem _ _ (by simpa using h), List.getElem_map,
    List.getD_eq_getElem _ _ h]

theorem getD_replicate_of_lt {α : Type _} (a d : α) (n j : ℕ) (h : j < n) :
    (List.replicate n a).getD j d = a := by
  rw [List.getD_eq_getElem _ _ (by simpa using h)]
  simp

theorem getD_replicate_any {α : Type _} (a : α) (n j : ℕ) :
    (List.replicate n a).getD j a = a := by
  rcases Nat.lt_or_ge j n with h | h
  · exact getD_replicate_of_lt a a n j h
  · rw [List.getD_eq_default _ _ (by simpa using h)]

theorem pyRound_nonneg {x : ℚ} (hx : 0 ≤ x) : 0 ≤ pyRound x := by
  unfold pyRound
  rw [if_pos hx]
  exact Int.floor_nonneg.2 (by linarith)

theorem npRound_nonneg {x : ℚ} (hx : 0 ≤ x) : 0 ≤ npRound x := by
  have h0 : (0 : ℤ) ≤ ⌊x⌋ := Int.floor_nonneg.2 hx
  unfold npRound
  split_ifs <;> omega

theorem npRound_le_pyRound {x : ℚ} (hx : 0 ≤ x) : npRound x ≤ pyRound x := by
  have hfl : (⌊x⌋ : ℚ) ≤ x := Int.floor_le x
  unfold npRound pyRound
  rw [if_pos hx]
  split_ifs with h1 h2 h3
  · exact Int.le_floor.2 (by linarith)
  · refine Int.le_floor.2 ?_
    push_cast
    have hr : (1 : ℚ)/2 ≤ x - ⌊x⌋ := le_of_lt h2
    linarith
  · exact Int.le_floor.2 (by linarith)
  · refine Int.le_floor.2 ?_
    push_cast
    have hr : (1 : ℚ)/2 ≤ x - ⌊x⌋ := not_lt.1 h1
    linarith

theorem wrap32_eq_self {z : ℤ} (h1 : -2 ^ 31 ≤ z) (h2 : z < 2 ^ 31) :
    wrap32 z = z := by
  unfold wrap32
  rw [Int.emod_eq_of_lt (by linarith) (by linarith)]
  ring

theorem CircularArray.step_current (c : CircularArray)
    (h : c.current < c.delay_steps) :
    (c.step).current = (c.current + 1) % c.delay_steps := by
  unfold CircularArray.step
  dsimp only
  split_ifs with hle
  · have hD : c.current + 1 = c.delay_steps := by omega
    rw [hD, Nat.mod_self]
  · exact (Nat.mod_eq_of_lt (by omega)).symm

theorem foldr_max_replicate_one (S : ℕ) (hS : 1 ≤ S) :
    (List.replicate S (1 : ℚ)).foldr max 0 = 1 := by
  induction S with
  | zero => exact absurd hS (by omega)
  | succ k ih =>
    rcases Nat.eq_zero_or_pos k with hk | hk
    · subst hk
      simp [List.replicate]
    · rw [List.replicate_succ, List.foldr_cons, ih hk]
      simp

theorem sum_range_map {α : Type _} [AddCommMonoid α] (f : ℕ → α) (k : ℕ) :
    ((List.range k).map f).sum = ∑ i ∈ Finset.range k, f i := by
  induction k with
  | zero => simp
  | succ m ih =>
    rw [List.range_succ, List.map_append, List.sum_append,
      Finset.sum_range_succ, ih]
    simp

theorem count_sum_of_lt (xs : List ℕ) (k : ℕ) (h : ∀ x ∈ xs, x < k) :
    (∑ i ∈ Finset.range k, xs.count i) = xs.length := by
  induction xs with
  | nil => simp
  | cons a t ih =>
    have ha : a ∈ Finset.range k := Finset.mem_range.2 (h a (List.mem_cons_self a t))
    have ht : ∀ x ∈ t, x < k := fun x hx => h x (List.mem_cons_of_mem a hx)
    simp only [List.count_cons, beq_iff_eq]
    rw [Finset.sum_add_distrib, ih ht, Finset.sum_ite_eq (Finset.range k) a fun _ => 1,
      if_pos ha, List.length_cons]

theorem foldr_max_bound (xs : List ℕ) : ∀ x ∈ xs, x ≤ xs.foldr max 0 := by
  induction xs with
  | nil => simp
  | cons a t ih =>
    intro x hx
    rcases List.mem_cons.1 hx with h | h
    · subst h
      exact le_max_left _ _
    · exact le_trans (ih x h) (le_max_right _ _)

theorem bincount_sum (xs : List ℕ) : (bincount xs).sum = xs.length := by
  unfold bincount
  split_ifs with he
  · subst he
    rfl
  · rw [sum_range_map, count_sum_of_lt]
    intro x hx
    exact Nat.lt_succ_of_le (foldr_max_bound xs x hx)

theorem count_insertSorted (a x : ℕ) (l : List ℕ) :
    (insertSorted a l).count x = (a :: l).count x := by
  induction l with
  | nil => rfl
  | cons b t ih =>
    unfold insertSorted
    split_ifs with h
    · rfl
    · simp only [List.count_cons, ih]
      omega

theorem length_insertSorted (a : ℕ) (l : List ℕ) :
    (insertSorted a l).length = l.length + 1 := by
  induction l with
  | nil => rfl
  | cons b t ih =>
    unfold insertSorted
    split_ifs with h
    · rfl
    · simp [ih]

theorem length_drawNats (s : ℕ → ℕ) (off len bound : ℕ) :
    (drawNats s off len bound).length = len := by
  simp [drawNats]

theorem length_npSort (l : List ℕ) : (npSort l).length = l.length := by
  induction l with
  | nil => rfl
  | cons a t ih =>
    unfold npSort
    rw [length_insertSorted, ih, List.length_cons]

theorem length_cumsum (xs : List ℕ) : (cumsum xs).length = xs.length := by
  induction xs with
  | nil => rfl
  | cons a t ih => simp [cumsum, ih]

theorem cumsum_getD (xs : List ℕ) (i : ℕ) (h : i < xs.length) :
    (cumsum xs).getD i 0 = (xs.take (i + 1)).sum := by
  induction xs generalizing i with
  | nil => cases h
  | cons a t ih =>
    cases i with
    | zero => simp [cumsum]
    | succ j =>
      have hj : j < t.length := by simpa using h
      unfold cumsum
      rw [List.getD_cons_succ,
        List.getD_eq_getElem _ _ (by rw [List.length_map, length_cumsum]; exact hj),
        List.getElem_map]
      have hgd := ih j hj
      rw [List.getD_eq_getElem _ _ (by rw [length_cumsum]; exact hj)] at hgd
      rw [hgd, List.take_succ_cons, List.sum_cons]

theorem cumTable_succ (nd : List ℕ) (i : ℕ) (h : i < nd.length) :
    (0 :: cumsum nd).getD (i + 1) 0
      = (0 :: cumsum nd).getD i 0 + nd.getD i 0 := by
  rw [List.getD_cons_succ, cumsum_getD nd i h]
  cases i with
  | zero =>
    cases nd with
    | nil => cases h
    | cons a t => simp
  | succ j =>
    rw [List.getD_cons_succ, cumsum_getD nd j (by omega),
      List.sum_take_succ nd (j + 1) h, List.getD_eq_getElem _ _ h]

theorem cumTable_last (nd : List ℕ) :
    (0 :: cumsum nd).getD nd.length 0 = nd.sum := by
  cases nd with
  | nil => rfl
  | cons a t =>
    rw [show (a :: t).length = t.length + 1 from rfl, List.getD_cons_succ,
      cumsum_getD (a :: t) t.length (by simp)]
    simp

theorem inject_I_pre_getD (ml : MorrisLecar) (ext : ℕ → ℚ) (j : ℕ) :
    ((ml.I_pre_fill0).update_I_pre_input ext).I_pre.getD j 0
      = if j < ml.num_neurons ∧ j < ml.num_input then ext j else 0 := by
  simp only [MorrisLecar.I_pre_fill0, MorrisLecar.update_I_pre_input]
  rw [getD_range_map]
  by_cases h1 : j < ml.num_neurons <;> by_cases h2 : j < ml.num_input <;>
    simp [h1, h2, getD_replicate_any]

theorem mk_eq_some_iff {npt : ℕ} {avr dt : ℚ} {ninon : ℕ}
    {npS : ℕ → ℕ} {rdS : ℕ → ℚ} {s : MockSystem} :
    mkMockSystem npt avr dt ninon npS rdS = some s ↔
      constructionOK npt avr dt ninon ∧ s = mkCore npt avr dt ninon npS rdS := by
  unfold mkMockSystem
  split_ifs with h
  · simp [h, eq_comm]
  · simp [h]

/-! ## Claim theorems -/

/-- C1: every tick of `run_step` performs the phases in the fixed order —
inject external current, aggregate synaptic input (`aggPhase`), integrate
(the new voltage vector is written into buffer row `current`), recompute
the synapse conductances against the buffer as it stands after that write
and before any cursor move, emit the new voltages, and finally advance the
cursor exactly once (`current` becomes `(current + 1) % D`); this holds
for every integrator. -/
theorem claim_C1_phase_order (integ : MorrisLecar → List ℚ × List ℚ)
    (sys : MockSystem) (ext : ℕ → ℚ)
    (hcur : sys.buffer.current < sys.buffer.delay_steps) :
    ((sys.run_step integ ext).1.buffer.buffer
        = sys.buffer.buffer.set sys.buffer.current (integ (sys.aggPhase ext)).1)
    ∧ (sys.run_step integ ext).1.buffer.current
        = (sys.buffer.current + 1) % sys.buffer.delay_steps
    ∧ (sys.run_step integ ext).1.synapses.conductance
        = sys.synapses.compute_synapse (sys.buffer.write (integ (sys.aggPhase ext)).1)
    ∧ (sys.run_step integ ext).2 = (integ (sys.aggPhase ext)).1
    ∧ (sys.run_step integ ext).1.neurons.V = (integ (sys.aggPhase ext)).1
    ∧ (sys.run_step integ ext).1.neurons.I_pre = (sys.aggPhase ext).I_pre := by
  refine ⟨rfl, ?_, rfl, rfl, rfl, rfl⟩
  exact CircularArray.step_current (sys.buffer.write (integ (sys.aggPhase ext)).1) hcur

/-- Witness for C1 at a concrete constructed system and integrator. -/
theorem claim_C1_phase_order_w :
    sysW.buffer.current < sysW.buffer.delay_steps ∧
      (sysW.run_step integW extW).1.buffer.current
        = (sysW.buffer.current + 1) % sysW.buffer.delay_steps :=
  ⟨by with_unfolding_all decide,
    (claim_C1_phase_order integW sysW extW (by with_unfolding_all decide)).2.1⟩

/-- C6: the integrator micro-step count is
`steps = max(1, round(dt / 1e-5))` and the micro-step size is
`ddt = dt / steps`; both are fixed at construction and no `run_step`
changes them. -/
theorem claim_C6_micro_steps (num_neurons num_types num_cart : ℕ)
    (neuron_start : List ℕ) (dt : ℚ) (num_dendrite : List ℕ) (V n : List ℚ)
    (V1 V2 V3 V4 Tphi offs : List ℚ) (nis : ℕ) :
    (mkMorrisLecar num_neurons num_types num_cart neuron_start dt num_dendrite
        V n V1 V2 V3 V4 Tphi offs nis).steps
      = max 1 (pyRound (dt / (1/100000)))
    ∧ (mkMorrisLecar num_neurons num_types num_cart neuron_start dt num_dendrite
        V n V1 V2 V3 V4 Tphi offs nis).ddt
      = dt / ((max 1 (pyRound (dt / (1/100000))) : ℤ) : ℚ)
    ∧ ∀ (integ : MorrisLecar → List ℚ × List ℚ) (sys : MockSystem) (ext : ℕ → ℚ),
        (sys.run_step integ ext).1.neurons.steps = sys.neurons.steps
        ∧ (sys.run_step integ ext).1.neurons.ddt = sys.neurons.ddt := by
  refine ⟨?_, ?_, fun integ sys ext => ⟨rfl, rfl⟩⟩
  · unfold mkMorrisLecar
    rw [max_comm]
  · unfold mkMorrisLecar
    rw [max_comm]

/-- C7: immediately after `CircularArray` construction with depth `D ≥ 1`
and an initial vector of length `num_neurons`, all `D` slots hold the
initial vector, and a delayed read for any neuron `i` and any delay
`0 ≤ d < D` returns neuron `i`'s initial resting value. -/
theorem claim_C7_prefill (n D : ℕ) (rest : List ℚ) (hD : 1 ≤ D)
    (_hlen : rest.length = n) :
    (∀ s < D, (CircularArray.init n D rest).buffer.getD s [] = rest)
    ∧ ∀ i < n, ∀ d : ℤ, 0 ≤ d → d < (D : ℤ) →
        (CircularArray.init n D rest).read i d = rest.getD i 0 := by
  constructor
  · intro s hs
    exact getD_replicate_of_lt rest [] D s hs
  · intro i hi d hd0 hdD
    unfold CircularArray.init CircularArray.read
    dsimp only
    have hDz : (D : ℤ) ≠ 0 := by positivity
    have h1 : 0 ≤ ((0 : ℕ) - d) % (D : ℤ) := Int.emod_nonneg _ hDz
    have h2 : ((0 : ℕ) - d) % (D : ℤ) < (D : ℤ) :=
      Int.emod_lt_of_pos _ (by exact_mod_cast hD)
    rw [getD_replicate_of_lt rest [] D _ (by omega)]

/-- Witness for C7 at a concrete buffer (depth 3, two neurons at rest). -/
theorem claim_C7_prefill_w :
    ((1 : ℕ) < 2 ∧ (0 : ℤ) ≤ 2 ∧ (2 : ℤ) < 3)
    ∧ (CircularArray.init 2 3 [-51/100, -51/100]).read 1 2
        = ([(-51/100 : ℚ), -51/100]).getD 1 0 :=
  ⟨by with_unfolding_all decide,
    (claim_C7_prefill 2 3 [-51/100, -51/100] (by decide) (by with_unfolding_all decide)).2
      1 (by decide) 2 (by decide) (by decide)⟩

/-- C9: at the start of every tick `I_pre` is zeroed before the external
injection; the injection then touches only the first `num_input` entries,
so every entry with index at least `num_input` is exactly zero when the
synaptic aggregation begins, and nothing from the previous tick's
accumulator survives (the result is independent of the prior `I_pre`). -/
theorem claim_C9_injection_frame (ml : MorrisLecar) (ext : ℕ → ℚ) :
    (∀ p : List ℚ,
      (({ ml with I_pre := p } : MorrisLecar).I_pre_fill0).update_I_pre_input ext
        = (ml.I_pre_fill0).update_I_pre_input ext)
    ∧ (∀ j, ml.num_input ≤ j →
        ((ml.I_pre_fill0).update_I_pre_input ext).I_pre.getD j 0 = 0)
    ∧ (∀ j, j < ml.num_input → j < ml.num_neurons →
        ((ml.I_pre_fill0).update_I_pre_input ext).I_pre.getD j 0 = ext j) := by
  refine ⟨fun p => rfl, ?_, ?_⟩
  · intro j hj
    rw [inject_I_pre_getD]
    have : ¬ (j < ml.num_neurons ∧ j < ml.num_input) := by omega
    rw [if_neg this]
  · intro j hj1 hj2
    rw [inject_I_pre_getD, if_pos ⟨hj2, hj1⟩]

/-- Witness for C9 at a concrete `MorrisLecar` with one input channel. -/
theorem claim_C9_injection_frame_w :
    ((mlW.I_pre_fill0).update_I_pre_input extW).I_pre.getD 1 0 = 0
    ∧ ((mlW.I_pre_fill0).update_I_pre_input extW).I_pre.getD 0 0 = extW 0 :=
  ⟨(claim_C9_injection_frame mlW extW).2.1 1 (by with_unfolding_all decide),
    (claim_C9_injection_frame mlW extW).2.2 0 (by with_unfolding_all decide)
      (by with_unfolding_all decide)⟩

/-- C2 (supporting evaluation): the embedded construction depends on the
unseeded `rd.gauss` stream.  With identical construction parameters
(`num_neurons_per_type = 1`, `avr_synapses_per_neuron = 1/15`,
`dt = 1e-4`, `num_in_non = 0`) and the identical (seeded) numpy stream,
two different `rd.gauss` streams yield different initial voltage vectors,
hence different simulation states and different voltage outputs. -/
theorem claim_C2_unseeded_rd_dependence :
    ((mkMockSystem 1 (1/15) (1/10000) 0 npZero rdZero).map fun s => s.neurons.V)
      ≠ ((mkMockSystem 1 (1/15) (1/10000) 0 npZero rdOne).map fun s => s.neurons.V) := by
  with_unfolding_all decide

/-- C3 counterexample: the claimed conversion `round(delay / Δt)` does not
match the code.  For the synapse with physical delay 1 and `Δt = 1e-4`,
the stored tick delay is `round(1 * 1e-3 / Δt) = 10`, whereas
`round(delay / Δt) = 10000` (under either rounding convention). -/
theorem claim_C3_conversion_cex :
    (mkVectorSynapse 1 [0] [0] [0] [1] [0] [1] [0] (1/10000)).delay.getD 0 0 = 10
    ∧ npRound ((1 : ℚ) / (1/10000)) = 10000
    ∧ pyRound ((1 : ℚ) / (1/10000)) = 10000
    ∧ (10 : ℤ) ≠ 10000 := by
  with_unfolding_all decide

/-- C3 amended: each synapse's tick delay is
`int32(np.round(delay * 1e-3 / Δt))` — the physical delay is scaled by
`1e-3` (a milliseconds-to-seconds unit conversion) before dividing by
`Δt`; it is still a function of only the delay value and `Δt`. -/
theorem claim_C3_delay_conversion (num_synapse : ℕ) (pre_neuron : List ℕ)
    (thres slope power saturation syn_delay V_rev : List ℚ) (dt : ℚ)
    (j : ℕ) (hj : j < syn_delay.length) :
    (mkVectorSynapse num_synapse pre_neuron thres slope power saturation
        syn_delay V_rev dt).delay.getD j 0
      = wrap32 (npRound (syn_delay.getD j 0 * (1/1000) / dt)) := by
  unfold mkVectorSynapse
  exact getD_map_of_lt _ _ _ _ 0 hj

/-- Witness for the amended C3 at a concrete synapse. -/
theorem claim_C3_delay_conversion_w :
    (0 : ℕ) < [(1 : ℚ)].length
    ∧ (mkVectorSynapse 1 [0] [0] [0] [1] [0] [1] [0] (1/10000)).delay.getD 0 0
        = wrap32 (npRound (([(1 : ℚ)]).getD 0 0 * (1/1000) / (1/10000))) :=
  ⟨by decide,
    claim_C3_delay_conversion 1 [0] [0] [0] [1] [0] [1] [0] (1/10000) 0 (by decide)⟩

set_option maxRecDepth 40000 in
/-- C5 counterexample: construction does NOT fail on the spec's invalid
configurations.  With `Δt = -1` (non-positive) and a numpy stream whose
draws hit `random_integers`' inclusive upper endpoint (so that
`pre_neuron[0] = 15 = num_neurons`, an out-of-range presynaptic index),
construction still produces a simulation object. -/
theorem claim_C5_cex :
    (mkMockSystem 1 1 (-1) 7 np15 rdZero).isSome = true
    ∧ ((-1 : ℚ) < 0)
    ∧ ((mkMockSystem 1 1 (-1) 7 np15 rdZero).map fun s =>
        (s.num_neurons, s.synapses.pre_neuron.getD 0 0)) = some (15, 15) := by
  refine ⟨?_, by norm_num, ?_⟩ <;> with_unfolding_all decide

/-- C5 amended: construction performs no validation of synapse indices,
`Δt` positivity, or tick-delay sanity.  It succeeds exactly when the
incidental runtime conditions hold — a positive synapse count, `Δt ≠ 0`,
a non-negative delay-step count (buffer allocation), and an in-range
`neuron_start` index — none of which is the spec's validity check; in
particular out-of-range presynaptic/postsynaptic indices never abort it. -/
theorem claim_C5_no_validation (npt : ℕ) (avr dt : ℚ) (ninon : ℕ)
    (npS : ℕ → ℕ) (rdS : ℕ → ℚ) :
    (mkMockSystem npt avr dt ninon npS rdS).isSome = true
      ↔ (0 < pyInt (avr * ((npt * 15 : ℕ) : ℚ)) ∧ dt ≠ 0
          ∧ 0 ≤ delayStepsOf (pyInt (avr * ((npt * 15 : ℕ) : ℚ))).toNat dt
          ∧ ninon / (npt * 15) < 15) := by
  unfold mkMockSystem
  split_ifs with h
  · unfold constructionOK at h
    simpa using h
  · unfold constructionOK at h
    simp only [Option.isSome_none, Bool.false_eq_true, false_iff]
    exact h

/-- C8: after construction the dendrite counts and the prefix-sum offset
table exactly partition the synapse index space — the table starts at 0,
each successive entry adds the corresponding dendrite count, the sum of
all dendrite counts equals `num_synapses`, and so does the table's final
entry. -/
theorem claim_C8_offsets_partition (npt : ℕ) (avr dt : ℚ) (ninon : ℕ)
    (npS : ℕ → ℕ) (rdS : ℕ → ℚ) (s : MockSystem)
    (h : mkMockSystem npt avr dt ninon npS rdS = some s) :
    s.neurons.cum_num_dendrite.getD 0 0 = 0
    ∧ (∀ i < s.neurons.num_dendrite.length,
        s.neurons.cum_num_dendrite.getD (i + 1) 0
          = s.neurons.cum_num_dendrite.getD i 0 + s.neurons.num_dendrite.getD i 0)
    ∧ s.neurons.num_dendrite.sum = s.num_synapses
    ∧ s.neurons.cum_num_dendrite.getD s.neurons.num_dendrite.length 0
        = s.num_synapses := by
  obtain ⟨hok, rfl⟩ := mk_eq_some_iff.1 h
  have hnd : (mkCore npt avr dt ninon npS rdS).neurons.num_dendrite
      = bincount (postListOf npt avr npS) := rfl
  have hcum : (mkCore npt avr dt ninon npS rdS).neurons.cum_num_dendrite
      = 0 :: cumsum (bincount (postListOf npt avr npS)) := rfl
  have hS : (mkCore npt avr dt ninon npS rdS).num_synapses = numSynOf npt avr := rfl
  have hlen : (postListOf npt avr npS).length = numSynOf npt avr := by
    unfold postListOf
    rw [length_npSort, length_drawNats]
  rw [hnd, hcum, hS]
  refine ⟨rfl, ?_, ?_, ?_⟩
  · intro i hi
    exact cumTable_succ _ i hi
  · rw [bincount_sum, hlen]
  · rw [cumTable_last, bincount_sum, hlen]

/-- Witness for C8 at a concrete constructed system. -/
theorem claim_C8_offsets_partition_w :
    sysW.neurons.cum_num_dendrite.getD 0 0 = 0
    ∧ sysW.neurons.num_dendrite.sum = sysW.num_synapses :=
  ⟨(claim_C8_offsets_partition 1 (1/15) (1/10000) 7 npZero rdZero sysW
      (by with_unfolding_all rfl)).1,
    (claim_C8_offsets_partition 1 (1/15) (1/10000) 7 npZero rdZero sysW
      (by with_unfolding_all rfl)).2.2.1⟩

/-- C10: the number of externally driven neurons is
`num_input = neuron_start[num_in_non / num_neurons]` with integer (floor)
division; whenever `num_in_non < num_neurons` this is `neuron_start[0] = 0`,
the per-tick injection copies zero elements, and the external current
never reaches any neuron (the accumulator is identically zero after the
injection phase). -/
theorem claim_C10_input_scaling (npt : ℕ) (avr dt : ℚ) (ninon : ℕ)
    (npS : ℕ → ℕ) (rdS : ℕ → ℚ) (s : MockSystem)
    (h : mkMockSystem npt avr dt ninon npS rdS = some s) :
    s.neurons.num_input = s.start_idx.getD (ninon / s.num_neurons) 0
    ∧ (ninon < s.num_neurons →
        s.neurons.num_input = 0
        ∧ ∀ (ext : ℕ → ℚ) (j : ℕ),
            ((s.neurons.I_pre_fill0).update_I_pre_input ext).I_pre.getD j 0 = 0) := by
  obtain ⟨hok, rfl⟩ := mk_eq_some_iff.1 h
  refine ⟨rfl, ?_⟩
  intro hlt
  have hNn : (mkCore npt avr dt ninon npS rdS).num_neurons = npt * 15 := rfl
  rw [hNn] at hlt
  have hN0 : ninon / (npt * 15) = 0 := Nat.div_eq_of_lt hlt
  have hni : (mkCore npt avr dt ninon npS rdS).neurons.num_input
      = ((List.range 15).map fun i => npt * 15 / 15 * i).getD (ninon / (npt * 15)) 0 := rfl
  have h0 : (mkCore npt avr dt ninon npS rdS).neurons.num_input = 0 := by
    rw [hni, hN0, getD_range_map]
    norm_num
  refine ⟨h0, ?_⟩
  intro ext j
  rw [inject_I_pre_getD, h0]
  simp

/-- Witness for C10 at a concrete constructed system (7 input channels,
15 neurons). -/
theorem claim_C10_input_scaling_w :
    (7 : ℕ) < sysW.num_neurons ∧ sysW.neurons.num_input = 0
    ∧ ((sysW.neurons.I_pre_fill0).update_I_pre_input extW).I_pre.getD 3 0 = 0 := by
  have hlt : (7 : ℕ) < sysW.num_neurons := by with_unfolding_all decide
  have h10 := (claim_C10_input_scaling 1 (1/15) (1/10000) 7 npZero rdZero sysW
    (by with_unfolding_all rfl)).2 hlt
  exact ⟨hlt, h10.1, h10.2 extW 3⟩

/-- C4 counterexample: with the code's unit delay vector and `Δt = 1e-4`,
synapse 0's tick delay equals the buffer depth (`10 = 10`), so the claimed
strict bound `delay < delay_steps` fails. -/
theorem claim_C4_strict_bound_cex :
    ((mkMockSystem 1 (1/15) (1/10000) 0 npZero rdZero).map fun s =>
        (s.synapses.delay.getD 0 0, (s.buffer.delay_steps : ℤ))) = some (10, 10)
    ∧ ¬ ((10 : ℤ) < 10) := by
  constructor
  · with_unfolding_all decide
  · decide

/-- C4 amended: after construction every synapse's tick delay `d`
satisfies `0 ≤ d ≤ D` where `D = delay_steps`; the bound is attained (the
maximum-delay synapse has `d = D`, see the counterexample), and the upper
bound assumes the tick count fits in `int32` (the stored delays go
through `astype(np.int32)`). -/
theorem claim_C4_delay_bounds (npt : ℕ) (avr dt : ℚ) (ninon : ℕ)
    (npS : ℕ → ℕ) (rdS : ℕ → ℚ) (s : MockSystem)
    (h : mkMockSystem npt avr dt ninon npS rdS = some s)
    (hdt : 0 < dt) (hfit : npRound ((1 : ℚ) * (1/1000) / dt) < 2 ^ 31) :
    ∀ j < s.synapses.delay.length,
      0 ≤ s.synapses.delay.getD j 0
      ∧ s.synapses.delay.getD j 0 ≤ (s.buffer.delay_steps : ℤ) := by
  obtain ⟨hok, rfl⟩ := mk_eq_some_iff.1 h
  have hS1 : 1 ≤ numSynOf npt avr := by
    have hp := hok.1
    unfold numSynOf
    omega
  have hdel : (mkCore npt avr dt ninon npS rdS).synapses.delay
      = (List.replicate (numSynOf npt avr) (1 : ℚ)).map
          fun d => wrap32 (npRound (d * (1/1000) / dt)) := rfl
  have hDs : (mkCore npt avr dt ninon npS rdS).buffer.delay_steps
      = (delayStepsOf (numSynOf npt avr) dt).toNat := rfl
  intro j hj
  rw [hdel] at hj ⊢
  rw [List.length_map, List.length_replicate] at hj
  rw [getD_map_of_lt _ _ _ _ 1 (by rw [List.length_replicate]; exact hj),
    getD_replicate_of_lt _ _ _ _ hj]
  have hx : (0 : ℚ) ≤ 1 * (1/1000) / dt := by positivity
  have hnn : 0 ≤ npRound ((1 : ℚ) * (1/1000) / dt) := npRound_nonneg hx
  have hw : wrap32 (npRound ((1 : ℚ) * (1/1000) / dt))
      = npRound ((1 : ℚ) * (1/1000) / dt) :=
    wrap32_eq_self (le_trans (by norm_num) hnn) hfit
  rw [hw]
  refine ⟨hnn, ?_⟩
  rw [hDs]
  have hds : delayStepsOf (numSynOf npt avr) dt
      = pyRound ((1 : ℚ) * (1/1000) / dt) := by
    unfold delayStepsOf
    rw [foldr_max_replicate_one _ hS1]
  have hpy : 0 ≤ pyRound ((1 : ℚ) * (1/1000) / dt) := pyRound_nonneg hx
  rw [hds, Int.toNat_of_nonneg hpy]
  exact npRound_le_pyRound hx

/-- Witness for the amended C4 at a concrete constructed system. -/
theorem claim_C4_delay_bounds_w :
    (0 : ℕ) < sysW.synapses.delay.length
    ∧ 0 ≤ sysW.synapses.delay.getD 0 0
    ∧ sysW.synapses.delay.getD 0 0 ≤ (sysW.buffer.delay_steps : ℤ) := by
  have hlen : (0 : ℕ) < sysW.synapses.delay.length := by with_unfolding_all decide
  have hb := claim_C4_delay_bounds 1 (1/15) (1/10000) 7 npZero rdZero sysW
    (by with_unfolding_all rfl) (by norm_num) (by with_unfolding_all decide) 0 hlen
  exact ⟨hlen, hb.1, hb.2⟩

end MockSim
